import Mathlib

/-!
# Verification of the SQL dump statement splitter

Shallow embedding of `SQLDumpParser.parse_statements` from
`src/sql_dump_parser.py` (the StatementSplitter core of the spec), together
with proofs of the specified properties.

The Python scanner walks the input left to right with an index `i`, a
current-statement buffer, and a quote state (`in_quoted_string` /
`current_quote`).  We embed the input as a `List Char` and the scan as a
structurally recursive function `parseAux`; the index-based loop with its
fallible character accesses is embedded separately (`loopIdx`) and proved to
refine `parseAux`.
-/

/-- The quote characters recognised by the parser
(`self.quote_chars = ["'", '"', '`']` in `SQLDumpParser.__init__`).
Written with `Char.ofNat`: 39 is the apostrophe, 96 the backtick. -/
def quote_chars : List Char := [Char.ofNat 39, '"', Char.ofNat 96]

/-- The escape character (`self.escape_char = '\\'`). -/
def escape_char : Char := '\\'

/-- Code points of the characters stripped by Python's `str.strip()`
(Unicode whitespace plus the ASCII field/record separators). -/
def py_whitespace : List Nat :=
  [9, 10, 11, 12, 13, 28, 29, 30, 31, 32, 133, 160, 5760,
   8192, 8193, 8194, 8195, 8196, 8197, 8198, 8199, 8200, 8201, 8202,
   8232, 8233, 8239, 8287, 12288]

/-- Whether `str.strip()` removes the character `c`. -/
def is_space (c : Char) : Bool := py_whitespace.contains c.toNat

/-- Python's `str.strip()` on a character list: remove leading and trailing
whitespace. -/
def strip (l : List Char) : List Char :=
  ((l.dropWhile is_space).reverse.dropWhile is_space).reverse

/-- The statement-emission step of the scanner
(`if current_statement.strip(): statements.append(current_statement.strip())`):
append the stripped buffer to the output if it is non-empty. -/
def emit (buf : List Char) (acc : List (List Char)) : List (List Char) :=
  if (strip buf).isEmpty then acc else acc ++ [strip buf]

/-- The scanning loop of `parse_statements`, embedded as structural recursion
on the remaining input.  Arguments: remaining input, quote state
(`none` = not inside a quoted string, `some q` = inside a string opened by
`q`), current-statement buffer, statements emitted so far.  The Python
`i += 1` after the escaped-pair branch makes the loop consume two characters
there; every other iteration consumes one. -/
def parseAux : List Char → Option Char → List Char → List (List Char) → List (List Char)
  | [], _, buf, acc => emit buf acc
  | c :: rest, none, buf, acc =>
      if c ∈ quote_chars then
        parseAux rest (some c) (buf ++ [c]) acc
      else if c = ';' then
        parseAux rest none [] (emit buf acc)
      else
        parseAux rest none (buf ++ [c]) acc
  | c :: rest, some q, buf, acc =>
      if c = escape_char then
        match rest with
        | [] => emit (buf ++ [c]) acc
        | d :: rest2 =>
            if d = q ∨ d = escape_char then
              parseAux rest2 (some q) (buf ++ [c, d]) acc
            else
              parseAux (d :: rest2) (some q) (buf ++ [c]) acc
      else if c = q then
        parseAux rest none (buf ++ [c]) acc
      else
        parseAux rest (some q) (buf ++ [c]) acc

/-- `SQLDumpParser.parse_statements`: split SQL dump content into individual
statements (the spec's `split` operation). -/
def parse_statements (sql_content : String) : List String :=
  (parseAux sql_content.toList none [] []).map String.mk

/-- The `has_semicolon` field computed by `SQLDumpParser.validate_statements`
(`';' in statement`). -/
def has_semicolon (statement : String) : Bool :=
  statement.toList.contains ';'

/-- The apostrophe, as a one-character string (for building concrete inputs). -/
def apos : String := String.mk [Char.ofNat 39]

/-- Concrete input of the quoted-semicolon immunity property. -/
def c1_input : String := "INSERT INTO t (name) VALUES (" ++ apos ++ "a;b" ++ apos ++ ");"

/-- The single statement expected from `c1_input`. -/
def c1_statement : String := "INSERT INTO t (name) VALUES (" ++ apos ++ "a;b" ++ apos ++ ")"

/-- Concrete input of the escaped-quote immunity property. -/
def c4_input : String :=
  "UPDATE t SET name = " ++ apos ++ "O\\" ++ apos ++ "Brien" ++ apos ++ " WHERE id = 1;"

/-- The single statement expected from `c4_input`. -/
def c4_statement : String :=
  "UPDATE t SET name = " ++ apos ++ "O\\" ++ apos ++ "Brien" ++ apos ++ " WHERE id = 1"

/-- Concrete input of the backtick-identifier property. -/
def c5_input : String := "INSERT INTO `my;table` VALUES (1);"

/-- The single statement expected from `c5_input`. -/
def c5_statement : String := "INSERT INTO `my;table` VALUES (1)"

/-- A concrete input whose quote is never terminated. -/
def c6_unterminated_input : String := "SELECT " ++ apos ++ "a;b"

/-- A concrete well-formed input with a semicolon inside a quoted value. -/
def c8_input : String := "a " ++ apos ++ "b;c" ++ apos ++ ";"

/-- Fallible character access, modelling Python's `sql_content[i]`
(raises `IndexError` when out of range). -/
def pyGet (s : List Char) (i : Nat) : Except Unit Char :=
  match s.get? i with
  | some c => Except.ok c
  | none => Except.error ()

/-- The `while i < len(sql_content)` loop of `parse_statements`, embedded
with its index arithmetic and fallible accesses intact.  `fuel` bounds the
number of iterations; since every iteration advances `i` by at least one,
`s.length` iterations always suffice (proved below), so the fuel-exhaustion
error is unreachable from `parse_statements_idx`. -/
def loopIdx : Nat → List Char → Nat → Option Char → List Char → List (List Char) →
    Except Unit (List (List Char))
  | 0, s, i, _, buf, acc =>
      if i < s.length then Except.error () else Except.ok (emit buf acc)
  | fuel + 1, s, i, inq, buf, acc =>
      if i < s.length then
        match pyGet s i with
        | Except.error e => Except.error e
        | Except.ok c =>
          match inq with
          | none =>
              if c ∈ quote_chars then
                loopIdx fuel s (i + 1) (some c) (buf ++ [c]) acc
              else if c = ';' then
                loopIdx fuel s (i + 1) none [] (emit buf acc)
              else
                loopIdx fuel s (i + 1) none (buf ++ [c]) acc
          | some q =>
              if c = escape_char then
                if i + 1 < s.length then
                  match pyGet s (i + 1) with
                  | Except.error e => Except.error e
                  | Except.ok d =>
                      if d = q ∨ d = escape_char then
                        loopIdx fuel s (i + 2) (some q) (buf ++ [c, d]) acc
                      else
                        loopIdx fuel s (i + 1) (some q) (buf ++ [c]) acc
                else
                  loopIdx fuel s (i + 1) (some q) (buf ++ [c]) acc
              else if c = q then
                loopIdx fuel s (i + 1) none (buf ++ [c]) acc
              else
                loopIdx fuel s (i + 1) (some q) (buf ++ [c]) acc
      else Except.ok (emit buf acc)

/-- `parse_statements` as the index-based loop actually written in Python:
all character accesses go through `pyGet` and any out-of-range access
surfaces as an error. -/
def parse_statements_idx (sql_content : String) : Except Unit (List String) :=
  (loopIdx sql_content.toList.length sql_content.toList 0 none [] []).map
    (fun r => r.map String.mk)

/-! ## Step lemmas for the scanner -/

theorem parseAux_nil (inq : Option Char) (buf : List Char) (acc : List (List Char)) :
    parseAux [] inq buf acc = emit buf acc := by
  cases inq <;> rfl

theorem parseAux_open (c : Char) (hc : c ∈ quote_chars) (rest : List Char)
    (buf : List Char) (acc : List (List Char)) :
    parseAux (c :: rest) none buf acc = parseAux rest (some c) (buf ++ [c]) acc := by
  simp [parseAux, hc]

theorem parseAux_semi (rest : List Char) (buf : List Char) (acc : List (List Char)) :
    parseAux (';' :: rest) none buf acc = parseAux rest none [] (emit buf acc) := by
  have h : (';' : Char) ∉ quote_chars := by decide
  simp [parseAux, h]

theorem parseAux_plain (c : Char) (hc : c ∉ quote_chars) (hs : c ≠ ';')
    (rest : List Char) (buf : List Char) (acc : List (List Char)) :
    parseAux (c :: rest) none buf acc = parseAux rest none (buf ++ [c]) acc := by
  simp [parseAux, hc, hs]

theorem parseAux_inq_ord (c q : Char) (hce : c ≠ escape_char) (hcq : c ≠ q)
    (rest : List Char) (buf : List Char) (acc : List (List Char)) :
    parseAux (c :: rest) (some q) buf acc = parseAux rest (some q) (buf ++ [c]) acc := by
  cases rest <;> simp [parseAux, hce, hcq]

theorem parseAux_close (q : Char) (hq : q ≠ escape_char)
    (rest : List Char) (buf : List Char) (acc : List (List Char)) :
    parseAux (q :: rest) (some q) buf acc = parseAux rest none (buf ++ [q]) acc := by
  cases rest <;> simp [parseAux, hq]

theorem parseAux_esc_pair (q d : Char) (hd : d = q ∨ d = escape_char)
    (rest : List Char) (buf : List Char) (acc : List (List Char)) :
    parseAux (escape_char :: d :: rest) (some q) buf acc
      = parseAux rest (some q) (buf ++ [escape_char, d]) acc := by
  simp [parseAux, hd]

theorem parseAux_esc_other (q d : Char) (hdq : d ≠ q) (hde : d ≠ escape_char)
    (rest : List Char) (buf : List Char) (acc : List (List Char)) :
    parseAux (escape_char :: d :: rest) (some q) buf acc
      = parseAux (d :: rest) (some q) (buf ++ [escape_char]) acc := by
  simp [parseAux, hdq, hde]

theorem parseAux_esc_end (q : Char) (buf : List Char) (acc : List (List Char)) :
    parseAux [escape_char] (some q) buf acc = emit (buf ++ [escape_char]) acc := by
  simp [parseAux]

/-! ## The index-based loop refines the list-based scan -/

theorem loopIdx_done (fuel : Nat) (s : List Char) (i : Nat) (h : s.length ≤ i)
    (inq : Option Char) (buf : List Char) (acc : List (List Char)) :
    loopIdx fuel s i inq buf acc = Except.ok (emit buf acc) := by
  cases fuel <;> simp [loopIdx, Nat.not_lt.mpr h]

theorem loopIdx_eq_parseAux (fuel : Nat) :
    ∀ (s : List Char) (i : Nat), s.length ≤ fuel + i →
    ∀ (inq : Option Char) (buf : List Char) (acc : List (List Char)),
    loopIdx fuel s i inq buf acc = Except.ok (parseAux (s.drop i) inq buf acc) := by
  induction fuel with
  | zero =>
      intro s i h inq buf acc
      have h' : s.length ≤ i := by omega
      rw [List.drop_eq_nil_of_le h', parseAux_nil]
      exact loopIdx_done 0 s i h' inq buf acc
  | succ fuel ih =>
      intro s i h inq buf acc
      by_cases hi : i < s.length
      · have hget : pyGet s i = Except.ok s[i] := by
          simp [pyGet, List.get?_eq_getElem?, List.getElem?_eq_getElem hi]
        have hdrop : s.drop i = s[i] :: s.drop (i + 1) := List.drop_eq_getElem_cons hi
        have hlen1 : s.length ≤ fuel + (i + 1) := by omega
        cases inq with
        | none =>
            by_cases hq : s[i] ∈ quote_chars
            · have lhs_eq : loopIdx (fuel + 1) s i none buf acc
                  = loopIdx fuel s (i + 1) (some s[i]) (buf ++ [s[i]]) acc := by
                simp [loopIdx, hi, hget, hq]
              rw [lhs_eq, ih s (i + 1) hlen1, hdrop, parseAux_open s[i] hq]
            · by_cases hsemi : s[i] = ';'
              · have hsq : (';' : Char) ∉ quote_chars := by decide
                have lhs_eq : loopIdx (fuel + 1) s i none buf acc
                    = loopIdx fuel s (i + 1) none [] (emit buf acc) := by
                  simp [loopIdx, hi, hget, hq, hsemi, hsq]
                rw [lhs_eq, ih s (i + 1) hlen1, hdrop, hsemi, parseAux_semi]
              · have lhs_eq : loopIdx (fuel + 1) s i none buf acc
                    = loopIdx fuel s (i + 1) none (buf ++ [s[i]]) acc := by
                  simp [loopIdx, hi, hget, hq, hsemi]
                rw [lhs_eq, ih s (i + 1) hlen1, hdrop, parseAux_plain s[i] hq hsemi]
        | some q =>
            by_cases hesc : s[i] = escape_char
            · by_cases hi1 : i + 1 < s.length
              · have hget1 : pyGet s (i + 1) = Except.ok s[i + 1] := by
                  simp [pyGet, List.get?_eq_getElem?, List.getElem?_eq_getElem hi1]
                have hdrop1 : s.drop (i + 1) = s[i + 1] :: s.drop (i + 2) :=
                  List.drop_eq_getElem_cons hi1
                by_cases hd : s[i + 1] = q ∨ s[i + 1] = escape_char
                · have hlen2 : s.length ≤ fuel + (i + 2) := by omega
                  have lhs_eq : loopIdx (fuel + 1) s i (some q) buf acc
                      = loopIdx fuel s (i + 2) (some q) (buf ++ [escape_char, s[i + 1]]) acc := by
                    simp [loopIdx, hi, hget, hesc, hi1, hget1, hd]
                  rw [lhs_eq, ih s (i + 2) hlen2, hdrop, hdrop1, hesc,
                    parseAux_esc_pair q s[i + 1] hd]
                · push_neg at hd
                  have lhs_eq : loopIdx (fuel + 1) s i (some q) buf acc
                      = loopIdx fuel s (i + 1) (some q) (buf ++ [escape_char]) acc := by
                    simp [loopIdx, hi, hget, hesc, hi1, hget1, hd.1, hd.2]
                  rw [lhs_eq, ih s (i + 1) hlen1, hdrop, hdrop1, hesc,
                    parseAux_esc_other q s[i + 1] hd.1 hd.2, ← hdrop1]
              · have hnil : s.drop (i + 1) = [] := List.drop_eq_nil_of_le (by omega)
                have lhs_eq : loopIdx (fuel + 1) s i (some q) buf acc
                    = loopIdx fuel s (i + 1) (some q) (buf ++ [escape_char]) acc := by
                  simp [loopIdx, hi, hget, hesc, hi1]
                rw [lhs_eq, loopIdx_done fuel s (i + 1) (by omega), hdrop, hnil, hesc,
                  parseAux_esc_end]
            · by_cases hcq : s[i] = q
              · have hq' : q ≠ escape_char := by rw [← hcq]; exact hesc
                have lhs_eq : loopIdx (fuel + 1) s i (some q) buf acc
                    = loopIdx fuel s (i + 1) none (buf ++ [q]) acc := by
                  simp [loopIdx, hi, hget, hesc, hcq, hq']
                rw [lhs_eq, ih s (i + 1) hlen1, hdrop, hcq, parseAux_close q hq']
              · have lhs_eq : loopIdx (fuel + 1) s i (some q) buf acc
                    = loopIdx fuel s (i + 1) (some q) (buf ++ [s[i]]) acc := by
                  simp [loopIdx, hi, hget, hesc, hcq]
                rw [lhs_eq, ih s (i + 1) hlen1, hdrop, parseAux_inq_ord s[i] q hesc hcq]
      · have h' : s.length ≤ i := by omega
        rw [List.drop_eq_nil_of_le h', parseAux_nil]
        exact loopIdx_done (fuel + 1) s i h' inq buf acc

/-! ## Properties of `strip` -/

theorem dropWhile_self_idem {α : Type} (p : α → Bool) (l : List α) :
    (l.dropWhile p).dropWhile p = l.dropWhile p := by
  induction l with
  | nil => rfl
  | cons a t ih =>
      by_cases h : p a
      · simp [List.dropWhile_cons, h, ih]
      · simp [List.dropWhile_cons, h]

theorem head?_dropWhile_false {α : Type} (p : α → Bool) (l : List α) {a : α}
    (h : (l.dropWhile p).head? = some a) : p a = false := by
  have hm := List.head?_dropWhile_not p l
  rw [h] at hm
  exact hm

theorem dropWhile_eq_self_of_head? {α : Type} (p : α → Bool) (l : List α)
    (h : ∀ a, l.head? = some a → p a = false) : l.dropWhile p = l := by
  cases l with
  | nil => rfl
  | cons a t => simp [List.dropWhile_cons, h a rfl]

theorem getLast?_dropWhile {α : Type} (p : α → Bool) (l : List α)
    (h : l.dropWhile p ≠ []) : (l.dropWhile p).getLast? = l.getLast? := by
  obtain ⟨t, ht⟩ := List.dropWhile_suffix (l := l) p
  conv_rhs => rw [← ht]
  rw [List.getLast?_append]
  cases hx : (l.dropWhile p).getLast? with
  | none => exact absurd (List.getLast?_eq_none_iff.mp hx) h
  | some a => simp

theorem strip_head? (l : List Char) :
    ∀ a, (strip l).head? = some a → is_space a = false := by
  intro a ha
  rw [show strip l = ((l.dropWhile is_space).reverse.dropWhile is_space).reverse from rfl,
    List.head?_reverse] at ha
  by_cases hB : (l.dropWhile is_space).reverse.dropWhile is_space = []
  · rw [hB] at ha
    simp at ha
  · rw [getLast?_dropWhile _ _ hB, List.getLast?_reverse] at ha
    exact head?_dropWhile_false _ _ ha

theorem strip_idem (l : List Char) : strip (strip l) = strip l := by
  have h1 : (strip l).dropWhile is_space = strip l :=
    dropWhile_eq_self_of_head? _ _ (strip_head? l)
  have h2 : (strip l).reverse = (l.dropWhile is_space).reverse.dropWhile is_space :=
    List.reverse_reverse _
  calc strip (strip l)
      = (((strip l).dropWhile is_space).reverse.dropWhile is_space).reverse := rfl
    _ = ((strip l).reverse.dropWhile is_space).reverse := by rw [h1]
    _ = (((l.dropWhile is_space).reverse.dropWhile is_space).dropWhile is_space).reverse := by
        rw [h2]
    _ = ((l.dropWhile is_space).reverse.dropWhile is_space).reverse := by
        rw [dropWhile_self_idem]
    _ = strip l := rfl

theorem mem_strip {x : Char} {l : List Char} (h : x ∈ strip l) : x ∈ l := by
  rw [show strip l = ((l.dropWhile is_space).reverse.dropWhile is_space).reverse from rfl,
    List.mem_reverse] at h
  have h2 := (List.dropWhile_sublist (l := (l.dropWhile is_space).reverse) is_space).subset h
  rw [List.mem_reverse] at h2
  exact (List.dropWhile_sublist is_space).subset h2

/-! ## Properties of `emit` -/

theorem mem_emit {x : List Char} {buf : List Char} {acc : List (List Char)}
    (h : x ∈ emit buf acc) : x ∈ acc ∨ (x = strip buf ∧ strip buf ≠ []) := by
  unfold emit at h
  by_cases he : (strip buf).isEmpty
  · rw [if_pos he] at h
    exact Or.inl h
  · rw [if_neg he] at h
    rcases List.mem_append.mp h with h | h
    · exact Or.inl h
    · refine Or.inr ⟨by simpa using h, fun hc => he ?_⟩
      rw [List.isEmpty_iff]
      exact hc

theorem emit_eq (buf : List Char) (acc : List (List Char)) :
    emit buf acc = acc ++ (([buf].map strip).filter (fun l => !l.isEmpty)) := by
  unfold emit
  by_cases h : (strip buf).isEmpty <;> simp [h]

theorem emit_acc_spec (buf : List Char) (acc : List (List Char))
    (hacc : ∀ x ∈ acc, x ≠ [] ∧ strip x = x) :
    ∀ x ∈ emit buf acc, x ≠ [] ∧ strip x = x := by
  intro x hx
  rcases mem_emit hx with h | ⟨rfl, hne⟩
  · exact hacc x h
  · exact ⟨hne, strip_idem buf⟩

/-! ## Every emitted statement is non-empty and equal to its own strip -/

theorem parseAux_out_spec :
    ∀ (input : List Char) (inq : Option Char) (buf : List Char) (acc : List (List Char)),
      (∀ x ∈ acc, x ≠ [] ∧ strip x = x) →
      ∀ x ∈ parseAux input inq buf acc, x ≠ [] ∧ strip x = x := by
  intro input inq buf acc
  induction input, inq, buf, acc using parseAux.induct with
  | case1 inq buf acc => exact fun hacc => emit_acc_spec buf acc hacc
  | case2 c rest buf acc h ih =>
      intro hacc
      rw [parseAux_open c h]
      exact ih hacc
  | case3 rest buf acc h ih =>
      intro hacc
      rw [parseAux_semi]
      exact ih (emit_acc_spec _ _ hacc)
  | case4 c rest buf acc h1 h2 ih =>
      intro hacc
      rw [parseAux_plain c h1 h2]
      exact ih hacc
  | case5 q buf acc =>
      intro hacc
      rw [parseAux_esc_end]
      exact emit_acc_spec _ _ hacc
  | case6 q buf acc d rest2 h ih =>
      intro hacc
      rw [parseAux_esc_pair q d h]
      exact ih hacc
  | case7 q buf acc d rest2 h ih =>
      intro hacc
      push_neg at h
      rw [parseAux_esc_other q d h.1 h.2]
      exact ih hacc
  | case8 rest q buf acc h ih =>
      intro hacc
      rw [parseAux_close q h]
      exact ih hacc
  | case9 c rest q buf acc h1 h2 ih =>
      intro hacc
      rw [parseAux_inq_ord c q h1 h2]
      exact ih hacc

/-! ## Decomposition of the input into the source pieces of the statements -/

/-- Join a non-empty list of pieces, putting one `;` between adjacent pieces
(the inverse of splitting at top-level semicolons). -/
def joinSemis : List (List Char) → List Char
  | [] => []
  | [x] => x
  | x :: y :: ys => x ++ ';' :: joinSemis (y :: ys)

theorem joinSemis_cons (x : List Char) {ys : List (List Char)} (h : ys ≠ []) :
    joinSemis (x :: ys) = x ++ ';' :: joinSemis ys := by
  cases ys with
  | nil => exact absurd rfl h
  | cons y ys => rfl

theorem parseAux_decompose :
    ∀ (input : List Char) (inq : Option Char) (buf : List Char) (acc : List (List Char)),
      ∃ pieces : List (List Char), pieces ≠ [] ∧ joinSemis pieces = buf ++ input ∧
        parseAux input inq buf acc
          = acc ++ ((pieces.map strip).filter (fun l => !l.isEmpty)) := by
  intro input inq buf acc
  induction input, inq, buf, acc using parseAux.induct with
  | case1 inq buf acc =>
      exact ⟨[buf], by simp, by simp [joinSemis], by rw [parseAux_nil, emit_eq]⟩
  | case2 c rest buf acc h ih =>
      obtain ⟨pieces, hne, hjoin, heq⟩ := ih
      exact ⟨pieces, hne, by simpa using hjoin, by rw [parseAux_open c h]; exact heq⟩
  | case3 rest buf acc h ih =>
      obtain ⟨pieces, hne, hjoin, heq⟩ := ih
      refine ⟨buf :: pieces, by simp, ?_, ?_⟩
      · rw [joinSemis_cons buf hne, hjoin]
        simp
      · rw [parseAux_semi, heq, emit_eq]
        by_cases hb : (strip buf).isEmpty <;> simp [List.filter_cons, hb]
  | case4 c rest buf acc h1 h2 ih =>
      obtain ⟨pieces, hne, hjoin, heq⟩ := ih
      exact ⟨pieces, hne, by simpa using hjoin, by rw [parseAux_plain c h1 h2]; exact heq⟩
  | case5 q buf acc =>
      refine ⟨[buf ++ [escape_char]], by simp, by simp [joinSemis], ?_⟩
      rw [parseAux_esc_end, emit_eq]
  | case6 q buf acc d rest2 h ih =>
      obtain ⟨pieces, hne, hjoin, heq⟩ := ih
      exact ⟨pieces, hne, by simpa using hjoin,
        by rw [parseAux_esc_pair q d h]; exact heq⟩
  | case7 q buf acc d rest2 h ih =>
      obtain ⟨pieces, hne, hjoin, heq⟩ := ih
      push_neg at h
      exact ⟨pieces, hne, by simpa using hjoin,
        by rw [parseAux_esc_other q d h.1 h.2]; exact heq⟩
  | case8 rest q buf acc h ih =>
      obtain ⟨pieces, hne, hjoin, heq⟩ := ih
      exact ⟨pieces, hne, by simpa using hjoin, by rw [parseAux_close q h]; exact heq⟩
  | case9 c rest q buf acc h1 h2 ih =>
      obtain ⟨pieces, hne, hjoin, heq⟩ := ih
      exact ⟨pieces, hne, by simpa using hjoin,
        by rw [parseAux_inq_ord c q h1 h2]; exact heq⟩

/-! ## Round-trip grammar (side condition of the spec's round-trip property) -/

/-- Body of a well-formed quoted region with active quote `q`, per the spec's
round-trip side condition: ordinary characters are neither `q` nor the escape
character; a backslash always comes paired with a following character. -/
inductive QuoteBody (q : Char) : List Char → Prop
  | nil : QuoteBody q []
  | plain (c : Char) (rest : List Char) : c ≠ q → c ≠ escape_char →
      QuoteBody q rest → QuoteBody q (c :: rest)
  | esc (c : Char) (rest : List Char) : QuoteBody q rest →
      QuoteBody q (escape_char :: c :: rest)

/-- A fragment with balanced, non-nested quote pairs of the single quote kind
`q` and no top-level semicolon, per the spec's round-trip side condition. -/
inductive Fragment (q : Char) : List Char → Prop
  | nil : Fragment q []
  | plain (c : Char) (rest : List Char) : c ∉ quote_chars → c ≠ ';' →
      Fragment q rest → Fragment q (c :: rest)
  | quoted (body rest : List Char) : QuoteBody q body → Fragment q rest →
      Fragment q (q :: (body ++ q :: rest))

theorem quoteBody_scan {q : Char} (hq : q ∈ quote_chars) {body : List Char}
    (hb : QuoteBody q body) :
    ∀ (rest buf : List Char) (acc : List (List Char)),
      parseAux (body ++ q :: rest) (some q) buf acc
        = parseAux rest none (buf ++ body ++ [q]) acc := by
  have hqe : q ≠ escape_char := by
    intro h
    rw [h] at hq
    revert hq
    decide
  induction hb with
  | nil =>
      intro rest buf acc
      rw [List.nil_append, parseAux_close q hqe]
      simp
  | plain c rest' hcq hce _ ih =>
      intro rest buf acc
      rw [List.cons_append, parseAux_inq_ord c q hce hcq, ih]
      simp
  | esc c rest' _ ih =>
      intro rest buf acc
      by_cases hd : c = q ∨ c = escape_char
      · rw [List.cons_append, List.cons_append, parseAux_esc_pair q c hd, ih]
        simp
      · push_neg at hd
        rw [List.cons_append, List.cons_append, parseAux_esc_other q c hd.1 hd.2,
          parseAux_inq_ord c q hd.2 hd.1, ih]
        simp

theorem fragment_scan {q : Char} (hq : q ∈ quote_chars) {f : List Char}
    (hf : Fragment q f) :
    ∀ (rest buf : List Char) (acc : List (List Char)),
      parseAux (f ++ rest) none buf acc = parseAux rest none (buf ++ f) acc := by
  induction hf with
  | nil => simp
  | plain c rest' hcq hcs _ ih =>
      intro rest buf acc
      rw [List.cons_append, parseAux_plain c hcq hcs, ih]
      simp
  | quoted body rest' hbody _ ih =>
      intro rest buf acc
      rw [List.cons_append, parseAux_open q hq,
        show (body ++ q :: rest') ++ rest = body ++ q :: (rest' ++ rest) by simp,
        quoteBody_scan hq hbody, ih]
      simp

/-- Concatenation of fragments, each followed by the `;` delimiter
(the generated inputs of the spec's round-trip property). -/
def dumpOfFragments (frags : List (List Char)) : List Char :=
  (frags.map (fun f => f ++ [';'])).flatten

theorem parseAux_dumpOfFragments (frags : List (List Char))
    (h : ∀ f ∈ frags, ∃ q ∈ quote_chars, Fragment q f) :
    ∀ acc, parseAux (dumpOfFragments frags) none [] acc
      = acc ++ ((frags.map strip).filter (fun l => !l.isEmpty)) := by
  induction frags with
  | nil =>
      intro acc
      have : strip ([] : List Char) = [] := rfl
      simp [dumpOfFragments, parseAux_nil, emit, this]
  | cons f fs ih =>
      intro acc
      obtain ⟨q, hq, hf⟩ := h f (by simp)
      have hdump : dumpOfFragments (f :: fs) = f ++ (';' :: dumpOfFragments fs) := by
        simp [dumpOfFragments]
      rw [hdump, fragment_scan hq hf, List.nil_append, parseAux_semi,
        ih (fun g hg => h g (by simp [hg])), emit_eq]
      by_cases hb : (strip f).isEmpty <;> simp [List.filter_cons, hb]

/-! ## Unterminated quotes absorb the rest of the input -/

theorem parseAux_unterminated :
    ∀ (input : List Char) (inq : Option Char) (buf : List Char) (acc : List (List Char)),
      ∀ q : Char, inq = some q → q ∉ input →
      parseAux input inq buf acc = emit (buf ++ input) acc := by
  intro input inq buf acc
  induction input, inq, buf, acc using parseAux.induct with
  | case1 inq buf acc =>
      intro q hq hni
      rw [parseAux_nil]
      simp
  | case2 c rest buf acc h ih => intro q hq hni; simp at hq
  | case3 rest buf acc h ih => intro q hq hni; simp at hq
  | case4 c rest buf acc h1 h2 ih => intro q hq hni; simp at hq
  | case5 q' buf acc =>
      intro q hq hni
      rw [parseAux_esc_end]
  | case6 q' buf acc d rest2 h ih =>
      intro q hq hni
      injection hq with hq
      subst hq
      rw [parseAux_esc_pair q' d h, ih q' rfl (fun hmem => hni (by simp [hmem]))]
      simp
  | case7 q' buf acc d rest2 h ih =>
      intro q hq hni
      injection hq with hq
      subst hq
      push_neg at h
      rw [parseAux_esc_other q' d h.1 h.2, ih q' rfl (fun hmem => hni (by simp at hmem; simp [hmem]))]
      simp
  | case8 rest q' buf acc h ih =>
      intro q hq hni
      injection hq with hq
      subst hq
      exact absurd (by simp : q' ∈ q' :: rest) hni
  | case9 c rest q' buf acc h1 h2 ih =>
      intro q hq hni
      injection hq with hq
      subst hq
      rw [parseAux_inq_ord c q' h1 h2, ih q' rfl (fun hmem => hni (by simp [hmem]))]
      simp

/-! ## Quote-free inputs produce semicolon-free statements -/

theorem parseAux_no_semi (input : List Char) :
    ∀ (buf : List Char) (acc : List (List Char)),
      (∀ c ∈ input, c ∉ quote_chars) → (';' ∉ buf) →
      (∀ x ∈ acc, ';' ∉ x) →
      ∀ x ∈ parseAux input none buf acc, ';' ∉ x := by
  induction input with
  | nil =>
      intro buf acc _ hbuf hacc x hx
      rw [parseAux_nil] at hx
      rcases mem_emit hx with h | ⟨rfl, _⟩
      · exact hacc x h
      · exact fun hc => hbuf (mem_strip hc)
  | cons c rest ih =>
      intro buf acc hin hbuf hacc x hx
      have hcq : c ∉ quote_chars := hin c (by simp)
      by_cases hcs : c = ';'
      · subst hcs
        rw [parseAux_semi] at hx
        refine ih [] (emit buf acc) (fun d hd => hin d (by simp [hd])) (by simp) ?_ x hx
        intro y hy
        rcases mem_emit hy with h | ⟨rfl, _⟩
        · exact hacc y h
        · exact fun hc => hbuf (mem_strip hc)
      · rw [parseAux_plain c hcq hcs] at hx
        refine ih (buf ++ [c]) acc (fun d hd => hin d (by simp [hd])) ?_ hacc x hx
        intro hc
        rcases List.mem_append.mp hc with h | h
        · exact hbuf h
        · simp at h
          exact hcs h.symm

/-! ## The claims -/

/-- C1: a `;` inside an open quoted region (whatever quote opened it) is
appended to the current statement, never treated as a delimiter; in
particular the `a;b` value of `c1_input` comes back as one statement whose
content contains the literal substring `a;b`. -/
theorem c1_quoted_semicolon_immune :
    (∀ q : Char, q ∈ quote_chars →
      ∀ (rest buf : List Char) (acc : List (List Char)),
        parseAux (';' :: rest) (some q) buf acc
          = parseAux rest (some q) (buf ++ [';']) acc)
    ∧ parse_statements c1_input = [c1_statement]
    ∧ (∃ pre post : List Char, c1_statement.toList = pre ++ ('a' :: ';' :: 'b' :: post)) := by
  refine ⟨?_, by decide, ?_⟩
  · intro q hq rest buf acc
    have hqs : (';' : Char) ≠ q := by
      intro h
      rw [← h] at hq
      revert hq
      decide
    have hse : (';' : Char) ≠ escape_char := by decide
    exact parseAux_inq_ord ';' q hse hqs rest buf acc
  · exact ⟨("INSERT INTO t (name) VALUES (" ++ apos).toList, (apos ++ ")").toList, by decide⟩

theorem c1_witness :
    parseAux [';', 'x'] (some (Char.ofNat 39)) [] []
      = parseAux ['x'] (some (Char.ofNat 39)) [';'] [] :=
  c1_quoted_semicolon_immune.1 (Char.ofNat 39) (by decide) ['x'] [] []

/-- C2: the splitter is total over all string inputs: the index-based loop of
the Python source, with every character access modelled fallibly, never
surfaces an error and agrees with `parse_statements` on every input. -/
theorem c2_total : ∀ s : String, parse_statements_idx s = Except.ok (parse_statements s) := by
  intro s
  unfold parse_statements_idx parse_statements
  rw [loopIdx_eq_parseAux s.toList.length s.toList 0 (by omega) none [] []]
  simp [Except.map]

/-- C3: round trip: for fragments made of balanced, non-nested quote pairs of
one quote kind and no top-level semicolons, splitting the concatenation of
the fragments each followed by `;` returns exactly the whitespace-trimmed
non-empty fragments, in order; in particular `split "A;B;C;" = [A, B, C]`. -/
theorem c3_round_trip :
    (∀ frags : List (List Char), (∀ f ∈ frags, ∃ q ∈ quote_chars, Fragment q f) →
        parse_statements (String.mk (dumpOfFragments frags))
          = ((frags.map strip).filter (fun l => !l.isEmpty)).map String.mk)
    ∧ parse_statements "A;B;C;" = ["A", "B", "C"] := by
  refine ⟨?_, by decide⟩
  intro frags h
  unfold parse_statements
  rw [show (String.mk (dumpOfFragments frags)).toList = dumpOfFragments frags from rfl,
    parseAux_dumpOfFragments frags h []]
  simp

theorem c3_witness :
    parse_statements (String.mk (dumpOfFragments [['A'], ['B']])) = ["A", "B"] := by
  have h : ∀ f ∈ [[('A' : Char)], [('B' : Char)]], ∃ q ∈ quote_chars, Fragment q f := by
    intro f hf
    simp only [List.mem_cons, List.not_mem_nil, or_false] at hf
    rcases hf with rfl | rfl
    · exact ⟨'"', by decide, Fragment.plain 'A' [] (by decide) (by decide) Fragment.nil⟩
    · exact ⟨'"', by decide, Fragment.plain 'B' [] (by decide) (by decide) Fragment.nil⟩
  rw [c3_round_trip.1 [['A'], ['B']] h]
  decide

/-- C4: inside a quoted region, a backslash followed by the active quote or by
another backslash is consumed as a pair, both characters kept and the region
left open; in particular the escaped apostrophe of `c4_input` does not close
the quote and the input comes back as one statement. -/
theorem c4_escape_pair :
    (∀ q d : Char, (d = q ∨ d = escape_char) →
      ∀ (rest buf : List Char) (acc : List (List Char)),
        parseAux (escape_char :: d :: rest) (some q) buf acc
          = parseAux rest (some q) (buf ++ [escape_char, d]) acc)
    ∧ parse_statements c4_input = [c4_statement] :=
  ⟨fun q d hd rest buf acc => parseAux_esc_pair q d hd rest buf acc, by decide⟩

theorem c4_witness :
    parseAux [escape_char, Char.ofNat 39, Char.ofNat 39] (some (Char.ofNat 39)) [] []
      = parseAux [Char.ofNat 39] (some (Char.ofNat 39)) [escape_char, Char.ofNat 39] [] :=
  c4_escape_pair.1 (Char.ofNat 39) (Char.ofNat 39) (Or.inl rfl) [Char.ofNat 39] [] []

/-- C5: once a quoted region is open, only the character that opened it closes
it; any other quote character inside is literal, backtick included as a quote
character on equal footing; in particular the `;` inside the backtick-quoted
identifier of `c5_input` is preserved in a single statement. -/
theorem c5_matching_quote :
    (∀ q c : Char, q ∈ quote_chars → c ∈ quote_chars → c ≠ q →
      ∀ (rest buf : List Char) (acc : List (List Char)),
        parseAux (c :: rest) (some q) buf acc = parseAux rest (some q) (buf ++ [c]) acc)
    ∧ (∀ q : Char, q ∈ quote_chars →
      ∀ (rest buf : List Char) (acc : List (List Char)),
        parseAux (q :: rest) (some q) buf acc = parseAux rest none (buf ++ [q]) acc)
    ∧ parse_statements c5_input = [c5_statement] := by
  refine ⟨?_, ?_, by decide⟩
  · intro q c hq hc hcq rest buf acc
    have hce : c ≠ escape_char := by
      intro h
      rw [h] at hc
      revert hc
      decide
    exact parseAux_inq_ord c q hce hcq rest buf acc
  · intro q hq rest buf acc
    have hqe : q ≠ escape_char := by
      intro h
      rw [h] at hq
      revert hq
      decide
    exact parseAux_close q hqe rest buf acc

theorem c5_witness :
    parseAux ['"', 'x'] (some (Char.ofNat 96)) [] []
      = parseAux ['x'] (some (Char.ofNat 96)) ['"'] [] :=
  c5_matching_quote.1 (Char.ofNat 96) '"' (by decide) (by decide) (by decide) ['x'] [] []

/-- C6: when the scan ends, a buffer that is non-empty after trimming is
emitted as the final statement (so `split "SELECT 1"` returns it without a
trailing delimiter), and with an unterminated quote the scanner never leaves
the quoted state: every remaining character, `;` included, is absorbed into
the final buffered statement, with no error. -/
theorem c6_final_buffer :
    (∀ (inq : Option Char) (buf : List Char) (acc : List (List Char)),
        parseAux [] inq buf acc
          = if (strip buf).isEmpty then acc else acc ++ [strip buf])
    ∧ (∀ q : Char, q ∈ quote_chars →
        ∀ (rest buf : List Char) (acc : List (List Char)), q ∉ rest →
          parseAux rest (some q) buf acc
            = if (strip (buf ++ rest)).isEmpty then acc else acc ++ [strip (buf ++ rest)])
    ∧ parse_statements "SELECT 1" = ["SELECT 1"]
    ∧ parse_statements c6_unterminated_input = [c6_unterminated_input] := by
  refine ⟨?_, ?_, by decide, by decide⟩
  · intro inq buf acc
    rw [parseAux_nil]
    rfl
  · intro q hq rest buf acc hnr
    rw [parseAux_unterminated rest (some q) buf acc q rfl hnr]
    rfl

theorem c6_witness :
    parseAux [';', 'x'] (some (Char.ofNat 39)) ['a'] []
      = if (strip (['a'] ++ [';', 'x'])).isEmpty then ([] : List (List Char))
        else [] ++ [strip (['a'] ++ [';', 'x'])] :=
  c6_final_buffer.2.1 (Char.ofNat 39) (by decide) [';', 'x'] ['a'] [] (by decide)

/-- C7: every string returned by the splitter is non-empty and equal to its
own whitespace-trim; inputs whose segments are all empty after trimming
produce the empty list. -/
theorem c7_trimmed_nonempty :
    (∀ s : String, ∀ out ∈ parse_statements s, out ≠ "" ∧ out = String.mk (strip out.toList))
    ∧ parse_statements "" = [] ∧ parse_statements ";;;" = []
    ∧ parse_statements "  ;  " = [] := by
  refine ⟨?_, by decide, by decide, by decide⟩
  intro s out hout
  unfold parse_statements at hout
  rcases List.mem_map.mp hout with ⟨x, hx, rfl⟩
  have hspec := parseAux_out_spec s.toList none [] [] (by simp) x hx
  refine ⟨fun h => hspec.1 ?_, ?_⟩
  · simpa using congrArg String.toList h
  · rw [show (String.mk x).toList = x from rfl, hspec.2]

theorem c7_witness :
    ("A" : String) ≠ "" ∧ ("A" : String) = String.mk (strip "A".toList) :=
  c7_trimmed_nonempty.1 "A;" "A" (by decide)

/-- C8 counterexample: the claim that no returned statement ever contains a
semicolon is false on the code: a well-formed input with a `;` inside a
quoted value yields a statement for which `validate_statements` computes
`has_semicolon = true` (preserving quoted semicolons is the parser's entire
purpose). -/
theorem c8_counterexample :
    ¬ (∀ s : String, ∀ out ∈ parse_statements s, has_semicolon out = false) := by
  intro h
  exact absurd (h c8_input ("a " ++ apos ++ "b;c" ++ apos) (by decide)) (by decide)

/-- C8 amended: for inputs containing no quote character, no returned
statement contains a `;`, so `has_semicolon` is false on every statement. -/
theorem c8_no_semicolon_quote_free :
    ∀ s : String, (∀ c ∈ s.toList, c ∉ quote_chars) →
      ∀ out ∈ parse_statements s, has_semicolon out = false := by
  intro s hs out hout
  unfold parse_statements at hout
  rcases List.mem_map.mp hout with ⟨x, hx, rfl⟩
  have hns := parseAux_no_semi s.toList [] [] hs (by simp) (by simp) x hx
  unfold has_semicolon
  rw [show (String.mk x).toList = x from rfl]
  simpa using hns

theorem c8_witness : has_semicolon "a" = false :=
  c8_no_semicolon_quote_free "a;b" (by decide) "a" (by decide)

/-- C9: the splitter never invents, duplicates, or reorders characters: every
input decomposes into an ordered list of contiguous pieces, rejoined by the
consumed `;` delimiters, and the output is exactly the trimmed non-empty
pieces in that order (each statement is the trim of its own piece, and the
source regions of successive statements are disjoint, left to right). -/
theorem c9_source_decomposition :
    ∀ s : String, ∃ pieces : List (List Char), pieces ≠ [] ∧
      joinSemis pieces = s.toList ∧
      parse_statements s = ((pieces.map strip).filter (fun l => !l.isEmpty)).map String.mk := by
  intro s
  obtain ⟨pieces, hne, hjoin, heq⟩ := parseAux_decompose s.toList none [] []
  refine ⟨pieces, hne, by simpa using hjoin, ?_⟩
  unfold parse_statements
  rw [heq]
  simp

/-- C10: outside any quoted region the backslash is an ordinary character: it
is appended to the buffer with no lookahead and protects nothing, so a
top-level `;` right after it still delimits: `split "a\;b" = ["a\\", "b"]`. -/
theorem c10_backslash_plain_outside_quotes :
    (∀ (rest buf : List Char) (acc : List (List Char)),
        parseAux (escape_char :: rest) none buf acc
          = parseAux rest none (buf ++ [escape_char]) acc)
    ∧ parse_statements "a\\;b" = ["a\\", "b"] := by
  refine ⟨?_, by decide⟩
  intro rest buf acc
  exact parseAux_plain escape_char (by decide) (by decide) rest buf acc
